import Mathlib

/-!
# Verification of `search_qutil_tx.py`

A shallow embedding of the qubic-tx-search scanner (`src/search_qutil_tx.py`)
and proofs about it.  Bytes are modelled as `Nat` values (with `< 256` bounds
stated where a claim needs them), Python byte strings as `List Nat`, Python
`int` values as `Int`/`Nat`, fallible operations as `Option`/`Except`, and the
filesystem / network as explicit oracle parameters.  Wall-clock concerns
(sleeps, backoff durations, the `found_at` timestamp) are outside the
embedding; everything else follows the source line by line.
-/

namespace QubicTxSearch

/-- `int.from_bytes(bs, "little", signed=False)`: unsigned little-endian value
of a byte string (first byte least significant). -/
def leVal (bs : List Nat) : Nat :=
  bs.foldr (fun b acc => b + 256 * acc) 0

/-- Python slice index resolution for `l[a:b]`: a negative index counts from the
end (clamped to 0), a non-negative index is clamped to the length. -/
def pySliceIdx (len : Nat) (a : Int) : Nat :=
  if a < 0 then ((len : Int) + a).toNat else min a.toNat len

/-- Python slice `l[a:b]` with full negative-index and clamping semantics. -/
def pySlice (l : List Nat) (a b : Int) : List Nat :=
  let s := pySliceIdx l.length a
  let e := pySliceIdx l.length b
  (l.drop s).take (e - s)

/-- The plausibility test `0 < x < 10**12` from `find_tail_amounts`. -/
def saneAmount (x : Nat) : Prop := 0 < x ∧ x < 10 ^ 12

instance (x : Nat) : Decidable (saneAmount x) := by
  unfold saneAmount; infer_instance

/-- The `while i >= 8` loop of `find_tail_amounts`, scanning backward from
index `i` in 8-byte strides.  `fuel` makes the recursion structural; each
iteration lowers `i` by 8, so any `fuel` with `i ≤ 8 * fuel` (in particular
`fuel = i`, used below) behaves exactly like the unbounded source loop. -/
def findTailLoop (raw : List Nat) : Nat → Nat → Nat × List Nat
  | 0, i => (i, [])
  | fuel + 1, i =>
    if 8 ≤ i then
      if saneAmount (leVal (pySlice raw ((i : Int) - 8) (i : Int))) then
        ((findTailLoop raw fuel (i - 8)).1,
          (findTailLoop raw fuel (i - 8)).2
            ++ [leVal (pySlice raw ((i : Int) - 8) (i : Int))])
      else (i, [])
    else (i, [])

/-- `find_tail_amounts(raw)`: returns `(start_index, count, amounts)` where the
amounts are the maximal trailing run of saneAmount 8-byte little-endian values,
restored to original order. -/
def find_tail_amounts (raw : List Nat) : Nat × Nat × List Nat :=
  ((findTailLoop raw raw.length raw.length).1,
    (findTailLoop raw raw.length raw.length).2.length,
    (findTailLoop raw raw.length raw.length).2)

/-- Value of a single hex digit character, or `none` (`binascii.Error`). -/
def hexDigitVal (c : Char) : Option Nat :=
  if '0' ≤ c ∧ c ≤ '9' then some (c.toNat - 48)
  else if 'a' ≤ c ∧ c ≤ 'f' then some (c.toNat - 87)
  else if 'A' ≤ c ∧ c ≤ 'F' then some (c.toNat - 55)
  else none

/-- The hex-pair parsing layer of `binascii.unhexlify` (run on the
ASCII-converted argument): `none` on an odd-length string or a non-hex
digit, the `binascii.Error` cases the decoder catches. -/
def unhexDigits : List Char → Option (List Nat)
  | [] => some []
  | [_] => none
  | c1 :: c2 :: rest => do
    let hi ← hexDigitVal c1
    let lo ← hexDigitVal c2
    let bs ← unhexDigits rest
    some ((16 * hi + lo) :: bs)

/-- The exceptions of `binascii.unhexlify` on a `str` argument:
`binasciiError` is the `binascii.Error` (a `ValueError` subclass) raised for
an odd-length string or a non-hex digit, which the decoder's
`except binascii.Error` catches; `valueError` is the plain `ValueError`
CPython raises while converting a string holding a non-ASCII character,
which that handler does not catch. -/
inductive UnhexErr : Type
  | binasciiError : UnhexErr
  | valueError : UnhexErr
deriving DecidableEq, Repr

deriving instance DecidableEq for Except

/-- `binascii.unhexlify` on a `str`: CPython first converts the argument to
bytes as ASCII (plain `ValueError` on any non-ASCII character), then parses
hex pairs (`binascii.Error` on odd length or a non-hex digit). -/
def unhexlify (s : List Char) : Except UnhexErr (List Nat) :=
  if s.all (fun c => c.toNat < 128) then
    match unhexDigits s with
    | some bs => .ok bs
    | none => .error .binasciiError
  else .error .valueError

/-- Lowercase hex character for a value `< 16`, as produced by `bytes.hex()`. -/
def hexChar (n : Nat) : Char :=
  if n < 10 then Char.ofNat (48 + n) else Char.ofNat (87 + n)

/-- Lowercase hex encoding of a byte string (inverse of `unhexlify`). -/
def hexEncode : List Nat → List Char
  | [] => []
  | b :: rest => hexChar (b / 16) :: hexChar (b % 16) :: hexEncode rest

/-- `addr_block = raw[amt_start - n*32 : amt_start]` (Python slicing: a
negative start counts from the end of `raw`). -/
def addrBlock (raw : List Nat) : List Nat :=
  pySlice raw
    (((find_tail_amounts raw).1 : Int) - ((find_tail_amounts raw).2.1 : Int) * 32)
    ((find_tail_amounts raw).1 : Int)

/-- `recipients = [addr_block[i*32:(i+1)*32] for i in range(n)]`. -/
def recipientsOf (raw : List Nat) : List (List Nat) :=
  (List.range (find_tail_amounts raw).2.1).map
    (fun (i : Nat) => pySlice (addrBlock raw) ((i : Int) * 32) (((i : Int) + 1) * 32))

/-- Body of `decode_qutil_outputs` after successful `unhexlify`. -/
def decodeRaw (raw : List Nat) : List (List Nat × Nat) :=
  if (find_tail_amounts raw).2.1 = 0 then []
  else if (addrBlock raw).length ≠ (find_tail_amounts raw).2.1 * 32 then []
  else (recipientsOf raw).zip (find_tail_amounts raw).2.2

/-- `decode_qutil_outputs(input_hex)`: heuristic decoder returning a list of
`(recipient_pubkey_bytes, amount)` pairs, `.ok []` on any structural anomaly
whose exception is caught (`except binascii.Error`).  `.error` models the
uncaught plain `ValueError` that escapes the function on a non-ASCII
argument. -/
def decode_qutil_outputs (input_hex : List Char) :
    Except Unit (List (List Nat × Nat)) :=
  match unhexlify input_hex with
  | .ok raw => .ok (decodeRaw raw)
  | .error .binasciiError => .ok []
  | .error .valueError => .error ()

/-- Little-endian byte encoding of `v` on `k` bytes (used to build test
payloads; `toLE8` matches the 8-byte amount encoding the decoder reads). -/
def toLEBytes : Nat → Nat → List Nat
  | 0, _ => []
  | k + 1, v => v % 256 :: toLEBytes k (v / 256)

/-- 8-byte little-endian encoding of an amount. -/
def toLE8 (v : Nat) : List Nat := toLEBytes 8 v

example : leVal [1, 0, 0, 0, 0, 0, 0, 0] = 1 := by decide
example : unhexlify (hexEncode [0, 255, 16]) = .ok [0, 255, 16] := by decide

/-! ## Rate-limited fetch client (`polite_get`)

The HTTP layer is modelled by an oracle: the list of outcomes of the
successive `session.get` calls.  Sleeping (rate limit, backoff, `Retry-After`
parsing) only affects timing, not the control flow modelled here. -/

/-- Outcome of one `session.get` call: a raised `requests.RequestException`,
or a response with a status code. -/
inductive Resp : Type
  | netErr : Resp
  | http : Nat → Resp
deriving DecidableEq, Repr

/-- An exception escaping `polite_get`: the re-raised `RequestException`, or
the `HTTPError` from `raise_for_status()` carrying the status code. -/
inductive FetchErr : Type
  | reqException : FetchErr
  | statusError : Nat → FetchErr
deriving DecidableEq, Repr

/-- Result of `polite_get`: a returned response (status code), a raised
exception, or `pending` when the oracle has no more responses (the source
loop would issue another request). -/
inductive GetOutcome : Type
  | success : Nat → GetOutcome
  | raised : FetchErr → GetOutcome
  | pending : GetOutcome
deriving DecidableEq, Repr

/-- The three fault classes `polite_get` retries: network-level exception,
HTTP 429, HTTP 5xx. -/
def retriable : Resp → Bool
  | .netErr => true
  | .http code => code == 429 || 500 ≤ code

/-- The exception `polite_get` raises when the retry budget is exhausted on a
given fault: the `RequestException` itself, or `raise_for_status()` on the
429/5xx response. -/
def underlying : Resp → FetchErr
  | .netErr => .reqException
  | .http code => .statusError code

/-- The retriable faults whose budget-exhaustion step actually raises:
`raise_for_status()` raises only for statuses in `[400, 600)`, so for a 5xx
status of 600 or more the exhaustion call is a no-op and the source loop
sleeps and retries again. -/
def raisesAtExhaustion : Resp → Bool
  | .netErr => true
  | .http code => code == 429 || (500 ≤ code && code < 600)

/-- The `while True` loop of `polite_get` over the response oracle, carrying
the shared `attempt` counter.  Returns the outcome together with the number
of requests issued.  `raise_for_status()` raises exactly for codes in
`[400, 600)`: at budget exhaustion on a status of 600 or more it is a no-op
and the loop falls through to the backoff sleep and continues. -/
def politeLoop (retries : Nat) : List Resp → Nat → GetOutcome × Nat
  | [], _ => (.pending, 0)
  | .netErr :: rest, attempt =>
    if attempt + 1 > retries then (.raised .reqException, 1)
    else
      ((politeLoop retries rest (attempt + 1)).1,
        (politeLoop retries rest (attempt + 1)).2 + 1)
  | .http code :: rest, attempt =>
    if code = 429 then
      if attempt + 1 > retries then (.raised (.statusError code), 1)
      else
        ((politeLoop retries rest (attempt + 1)).1,
          (politeLoop retries rest (attempt + 1)).2 + 1)
    else if 500 ≤ code then
      if attempt + 1 > retries ∧ code < 600 then (.raised (.statusError code), 1)
      else
        ((politeLoop retries rest (attempt + 1)).1,
          (politeLoop retries rest (attempt + 1)).2 + 1)
    else if 400 ≤ code then (.raised (.statusError code), 1)
    else (.success code, 1)

/-- `polite_get(url, ..., retries)` run against a response oracle, starting
from `attempt = 0` as in the source. -/
def polite_get (retries : Nat) (resps : List Resp) : GetOutcome × Nat :=
  politeLoop retries resps 0

/-! ## JSON values, progress store and match store

Files are modelled at the JSON-value level: a read either misses
(`none`), fails to parse (`some (.error ())`), or yields a JSON value
(`json.dump`/`json.load` round-trip at the value level). -/

/-- JSON values as produced by `json.load` (floats are not needed by any
claim and are omitted). -/
inductive J : Type
  | num : Int → J
  | str : String → J
  | bool : Bool → J
  | null : J
  | arr : List J → J
  | obj : List (String × J) → J
deriving Repr

/-- `load_state()`: returns the parsed progress file, or the default
`{"next_tick": START_TICK}` when the file is missing or reading/parsing
raised.  Total by construction: it never raises. -/
def load_state (START_TICK : Int) (file : Option (Except Unit J)) : J :=
  match file with
  | some (.ok v) => v
  | some (.error _) => J.obj [("next_tick", J.num START_TICK)]
  | none => J.obj [("next_tick", J.num START_TICK)]

/-- First-match key lookup in a JSON object's field list (Python dict access;
`json.load` keeps the last duplicate key, but duplicate keys never arise from
`save_state`, which writes each key once). -/
def jLookup : List (String × J) → String → Option J
  | [], _ => none
  | (k, v) :: rest, key => if k = key then some v else jLookup rest key

/-- Python `state.get(key, default)`: raises (`AttributeError`) when `state`
is not a dict. -/
def pyGet (state : J) (key : String) (default : J) : Except Unit J :=
  match state with
  | J.obj fields =>
    match jLookup fields key with
    | some v => .ok v
    | none => .ok default
  | _ => .error ()

/-- Value of a decimal digit character, or `none`. -/
def decDigit (c : Char) : Option Nat :=
  if '0' ≤ c ∧ c ≤ '9' then some (c.toNat - 48) else none

/-- ASCII whitespace, as stripped by `int()` from a string argument.
(Python strips all Unicode whitespace; the claims only evaluate strings of
ASCII characters.) -/
def isPySpace (c : Char) : Bool :=
  c = ' ' ∨ c = '\t' ∨ c = '\n' ∨ c = '\x0b' ∨ c = '\x0c' ∨ c = '\r'

/-- Leading and trailing whitespace stripped. -/
def stripSpaces (cs : List Char) : List Char :=
  ((cs.dropWhile isPySpace).reverse.dropWhile isPySpace).reverse

/-- Digit-run value with single underscores allowed between digits
(`prev` records whether the previous character was a digit); at least one
digit required, no leading, trailing or doubled underscore. -/
def digitsVal : List Char → Nat → Bool → Option Nat
  | [], acc, true => some acc
  | [], _, false => none
  | c :: rest, acc, prev =>
    match decDigit c with
    | some d => digitsVal rest (acc * 10 + d) true
    | none =>
      if c = '_' ∧ prev = true then digitsVal rest acc false
      else none

/-- `int(s)` after whitespace stripping: an optional sign followed by an
underscore-grouped digit run, anything else a `ValueError`.  (Python also
accepts non-ASCII Unicode decimal digits; the claims only evaluate strings
of ASCII characters.) -/
def pyIntOfStripped : List Char → Except Unit Int
  | [] => .error ()
  | c :: rest =>
    if c = '-' then
      match digitsVal rest 0 false with
      | some n => .ok (-(n : Int))
      | none => .error ()
    else if c = '+' then
      match digitsVal rest 0 false with
      | some n => .ok ((n : Int))
      | none => .error ()
    else
      match digitsVal (c :: rest) 0 false with
      | some n => .ok ((n : Int))
      | none => .error ()

/-- Python `int(s)` on a string. -/
def pyStrToInt (cs : List Char) : Except Unit Int :=
  pyIntOfStripped (stripSpaces cs)

/-- Python `int(x)` on a JSON value: ints pass through, numeric strings are
parsed (`ValueError` otherwise), booleans coerce to 0/1, anything else is a
`TypeError`. -/
def pyInt : J → Except Unit Int
  | J.num n => .ok n
  | J.str s => pyStrToInt s.data
  | J.bool b => .ok (if b then 1 else 0)
  | _ => .error ()

/-- The first statements of `scan()`:
`state = load_state(); tick = int(state.get("next_tick", START_TICK))`.
An `.error` value is an exception propagating out of `scan` at startup. -/
def scan_next_tick (START_TICK : Int) (file : Option (Except Unit J)) :
    Except Unit Int := do
  let v ← pyGet (load_state START_TICK file) "next_tick" (J.num START_TICK)
  pyInt v

/-- The collection `append_match` starts from: the parsed results file when
it exists and parses, otherwise the empty list (`existing = []`). -/
def matchesRead (file : Option (Except Unit J)) : J :=
  match file with
  | some (.ok v) => v
  | some (.error _) => J.arr []
  | none => J.arr []

/-- `append_match(rec)`: read-with-fallback, `existing.append(rec)`, rewrite.
Returns the new file content; `.error` models the `AttributeError` Python
raises when the parsed file is not a list. -/
def append_match (file : Option (Except Unit J)) (rec : J) : Except Unit J :=
  match matchesRead file with
  | J.arr existing => .ok (J.arr (existing ++ [rec]))
  | _ => .error ()

/-! ## Scan driver

The network is an oracle `fetch : Nat → Except Unit (List (Option Tx))`
giving, per tick, either the wrapped-transaction list extracted by
`get_tick_transactions` or the exception escaping it after retries.  A
wrapper whose `transaction` field is missing or null is `none` (the source's
`(w or {}).get("transaction") or {}` then yields an empty dict).  The run is
recorded as a trace of events: console warnings, `save_state` calls and
appended match records.  The `found_at` wall-clock timestamp of a match
record is outside the embedding and omitted. -/

/-- The fields of a fetched transaction object that `scan` reads; a missing
key is `none`. -/
structure Tx : Type where
  destId : Option String := none
  inputType : Option Int := none
  inputHex : Option (List Char) := none
  txId : Option String := none
  id : Option String := none
  tickNumber : Option Nat := none
deriving DecidableEq, Repr

/-- A match record as built in `scan` (without the `found_at` timestamp). -/
structure MatchRec : Type where
  tick : Nat
  txId : Option String
  pubkey_hex : List Char
  amount : Nat
deriving DecidableEq, Repr

/-- The destination filter: `QUTIL_DEST_ID and tx.get("destId") != QUTIL_DEST_ID`
(a missing `destId` also mismatches any configured filter). -/
def destMismatch (destFilter : Option String) (tx : Tx) : Bool :=
  match destFilter with
  | some d => tx.destId ≠ some d
  | none => false

/-- Processing of one transaction inside the `for w in wraps` loop: the
returned `Bool` records whether `decode_qutil_outputs` was invoked, the list
holds the match records appended for this transaction, in order.  The step
is kept total by projecting the decoder's `.ok` result: a non-ASCII
`inputHex` would in fact abort the whole run with the uncaught `ValueError`
modelled in `decode_qutil_outputs` (settled under the decoder claims); the
hex strings the archiver returns are ASCII, and the scan-level claims
describe the non-aborting runs. -/
def processTx (destFilter : Option String) (TARGET_AMOUNT : Nat)
    (curTick : Nat) (tx : Tx) : Bool × List MatchRec :=
  if destMismatch destFilter tx then (false, [])
  else if tx.inputType ≠ some 1 ∨ tx.inputHex = none then (false, [])
  else
    let outputs := match decode_qutil_outputs (tx.inputHex.getD []) with
      | .ok outs => outs
      | .error _ => []
    (true,
      (outputs.filter (fun pr => pr.2 = TARGET_AMOUNT)).map (fun pr =>
        { tick := tx.tickNumber.getD curTick
          txId := match tx.txId with | some s => some s | none => tx.id
          pubkey_hex := hexEncode pr.1
          amount := pr.2 }))

/-- All match records appended while processing one tick's wrapper list. -/
def processWraps (destFilter : Option String) (TARGET_AMOUNT : Nat)
    (curTick : Nat) (wraps : List (Option Tx)) : List MatchRec :=
  wraps.flatMap (fun w => (processTx destFilter TARGET_AMOUNT curTick (w.getD {})).2)

/-- Observable events of a scan run. -/
inductive Ev : Type
  | warn : Nat → Ev
  | saved : Nat → Ev
  | matched : MatchRec → Ev
deriving DecidableEq, Repr

/-- The `while tick <= end` loop of `scan`, as structural recursion on the
number of remaining iterations (`count = end + 1 - tick`; the source loop
increments `tick` by exactly 1 per iteration on both the failure and the
success path, so it performs exactly that many iterations). -/
def scanFrom (fetch : Nat → Except Unit (List (Option Tx)))
    (destFilter : Option String) (TARGET_AMOUNT : Nat) :
    Nat → Nat → List Ev
  | _, 0 => []
  | tick, count + 1 =>
    match fetch tick with
    | .error _ =>
      Ev.warn tick :: Ev.saved (tick + 1)
        :: scanFrom fetch destFilter TARGET_AMOUNT (tick + 1) count
    | .ok wraps =>
      (processWraps destFilter TARGET_AMOUNT tick wraps).map Ev.matched
        ++ Ev.saved (tick + 1)
        :: scanFrom fetch destFilter TARGET_AMOUNT (tick + 1) count

/-- The event trace of `scan` started at `tick` with inclusive end `END_TICK`. -/
def scanEvents (fetch : Nat → Except Unit (List (Option Tx)))
    (destFilter : Option String) (TARGET_AMOUNT : Nat)
    (tick END_TICK : Nat) : List Ev :=
  scanFrom fetch destFilter TARGET_AMOUNT tick (END_TICK + 1 - tick)

/-- The successive `next_tick` values passed to `save_state`, in call order. -/
def savedOf (evs : List Ev) : List Nat :=
  evs.filterMap (fun e => match e with | Ev.saved n => some n | _ => none)

/-! ## Supporting lemmas: little-endian values and hex -/

theorem leVal_cons (b : Nat) (bs : List Nat) :
    leVal (b :: bs) = b + 256 * leVal bs := rfl

theorem toLEBytes_length (k : Nat) : ∀ v, (toLEBytes k v).length = k := by
  induction k with
  | zero => intro v; rfl
  | succ k ih => intro v; simp [toLEBytes, ih]

theorem toLE8_length (v : Nat) : (toLE8 v).length = 8 := toLEBytes_length 8 v

theorem toLEBytes_lt (k : Nat) : ∀ v, ∀ b ∈ toLEBytes k v, b < 256 := by
  induction k with
  | zero => intro v b hb; simp [toLEBytes] at hb
  | succ k ih =>
    intro v b hb
    simp only [toLEBytes, List.mem_cons] at hb
    rcases hb with h | h
    · omega
    · exact ih _ _ h

theorem leVal_toLEBytes (k : Nat) : ∀ v, leVal (toLEBytes k v) = v % 256 ^ k := by
  induction k with
  | zero => intro v; simp [toLEBytes, leVal, Nat.mod_one]
  | succ k ih =>
    intro v
    rw [toLEBytes, leVal_cons, ih, pow_succ', Nat.mod_mul]

theorem leVal_toLE8 (v : Nat) (h : v < 2 ^ 64) : leVal (toLE8 v) = v := by
  have h2 : (256 : Nat) ^ 8 = 2 ^ 64 := by norm_num
  rw [toLE8, leVal_toLEBytes, h2, Nat.mod_eq_of_lt h]

theorem hexDigitVal_hexChar : ∀ b < 16, hexDigitVal (hexChar b) = some b := by decide

theorem unhexDigits_hexEncode :
    ∀ bs : List Nat, (∀ b ∈ bs, b < 256) → unhexDigits (hexEncode bs) = some bs := by
  intro bs
  induction bs with
  | nil => intro _; rfl
  | cons b rest ih =>
    intro h
    have hb : b < 256 := h b (by simp)
    have h1 : b / 16 < 16 := by omega
    have h2 : b % 16 < 16 := by omega
    have hrest := ih (fun x hx => h x (by simp [hx]))
    simp only [hexEncode, unhexDigits, hexDigitVal_hexChar _ h1,
      hexDigitVal_hexChar _ h2, hrest, Option.bind_some]
    have hbv : 16 * (b / 16) + b % 16 = b := by omega
    simp [hbv]

theorem hexChar_ascii : ∀ n < 16, (hexChar n).toNat < 128 := by decide

theorem hexEncode_ascii :
    ∀ bs : List Nat, (∀ b ∈ bs, b < 256) →
      (hexEncode bs).all (fun c => c.toNat < 128) = true := by
  intro bs
  induction bs with
  | nil => intro _; rfl
  | cons b rest ih =>
    intro h
    have hb : b < 256 := h b (by simp)
    have hrest := ih (fun x hx => h x (by simp [hx]))
    simp only [hexEncode, List.all_cons, hrest, Bool.and_eq_true, decide_eq_true_eq,
      Bool.and_true]
    exact ⟨hexChar_ascii _ (by omega), hexChar_ascii _ (by omega)⟩

theorem unhexlify_hexEncode (bs : List Nat) (h : ∀ b ∈ bs, b < 256) :
    unhexlify (hexEncode bs) = .ok bs := by
  rw [unhexlify, if_pos (hexEncode_ascii bs h), unhexDigits_hexEncode bs h]

/-! ## Supporting lemmas: Python slicing -/

theorem pySliceIdx_le (len : Nat) (a : Int) : pySliceIdx len a ≤ len := by
  unfold pySliceIdx; split <;> omega

theorem pySlice_length (l : List Nat) (a b : Int) :
    (pySlice l a b).length = pySliceIdx l.length b - pySliceIdx l.length a := by
  have hb := pySliceIdx_le l.length b
  unfold pySlice
  simp only [List.length_take, List.length_drop]
  omega

theorem pySlice_nat (l : List Nat) (i j : Nat)
    (hi : i ≤ l.length) (hj : j ≤ l.length) :
    pySlice l (i : Int) (j : Int) = (l.drop i).take (j - i) := by
  unfold pySlice pySliceIdx
  have h1 : ¬ ((i : Int) < 0) := by omega
  have h2 : ¬ ((j : Int) < 0) := by omega
  have h3 : ((i : Int)).toNat = i := by omega
  have h4 : ((j : Int)).toNat = j := by omega
  rw [if_neg h1, if_neg h2, h3, h4, Nat.min_eq_left hi, Nat.min_eq_left hj]

/-! ## Supporting lemmas: the backward amount scan -/

theorem findTailLoop_of_lt (raw : List Nat) (fuel i : Nat) (h : i < 8) :
    findTailLoop raw fuel i = (i, []) := by
  cases fuel with
  | zero => rfl
  | succ f => rw [findTailLoop, if_neg (by omega)]

theorem findTailLoop_spec (raw : List Nat) (fuel : Nat) :
    ∀ i, (findTailLoop raw fuel i).1 + 8 * (findTailLoop raw fuel i).2.length = i := by
  induction fuel with
  | zero => intro i; simp [findTailLoop]
  | succ f ih =>
    intro i
    rw [findTailLoop]
    split
    · split
      · have h := ih (i - 8)
        simp only [List.length_append, List.length_cons, List.length_nil]
        omega
      · simp
    · simp

theorem findTailLoop_fuel (raw : List Nat) :
    ∀ f1 f2 i, i ≤ 8 * f1 → i ≤ 8 * f2 →
      findTailLoop raw f1 i = findTailLoop raw f2 i := by
  intro f1
  induction f1 with
  | zero =>
    intro f2 i h1 _
    have hz : i = 0 := by omega
    subst hz
    rw [findTailLoop_of_lt raw 0 0 (by omega), findTailLoop_of_lt raw f2 0 (by omega)]
  | succ g ih =>
    intro f2 i h1 h2
    by_cases hc : i < 8
    · rw [findTailLoop_of_lt _ _ _ hc, findTailLoop_of_lt _ _ _ hc]
    · obtain ⟨g2, rfl⟩ : ∃ g2, f2 = g2 + 1 := ⟨f2 - 1, by omega⟩
      rw [findTailLoop, findTailLoop, ih g2 (i - 8) (by omega) (by omega)]

theorem findTailLoop_append (l t : List Nat) :
    ∀ fuel i, i ≤ l.length →
      findTailLoop (l ++ t) fuel i = findTailLoop l fuel i := by
  intro fuel
  induction fuel with
  | zero => intro i _; rfl
  | succ f ih =>
    intro i hi
    by_cases hc : 8 ≤ i
    · have hcast : ((i : Int) - 8) = ((i - 8 : Nat) : Int) := by omega
      have hslice : pySlice (l ++ t) ((i : Int) - 8) (i : Int)
          = pySlice l ((i : Int) - 8) (i : Int) := by
        rw [hcast,
          pySlice_nat (l ++ t) (i - 8) i
            (by simp only [List.length_append]; omega)
            (by simp only [List.length_append]; omega),
          pySlice_nat l (i - 8) i (by omega) hi,
          List.drop_append_of_le_length (by omega)]
        have h8 : i - (i - 8) = 8 := by omega
        rw [h8, List.take_append_of_le_length
          (by simp only [List.length_drop]; omega)]
      rw [findTailLoop, findTailLoop, hslice, ih (i - 8) (by omega)]
    · rw [findTailLoop_of_lt _ _ _ (by omega), findTailLoop_of_lt _ _ _ (by omega)]

theorem flatten_map_toLE8_length (amts : List Nat) :
    ((amts.map toLE8).flatten).length = 8 * amts.length := by
  induction amts with
  | nil => rfl
  | cons a rest ih =>
    simp only [List.map_cons, List.flatten_cons, List.length_append,
      List.length_cons, toLE8_length, ih]
    omega

theorem findTailLoop_boundary (pre : List Nat) (fuel : Nat) (hfuel : fuel ≠ 0)
    (h8 : 8 ≤ pre.length)
    (hstop : ¬ saneAmount (leVal ((pre.drop (pre.length - 8)).take 8))) :
    findTailLoop pre fuel pre.length = (pre.length, []) := by
  obtain ⟨f, rfl⟩ : ∃ f, fuel = f + 1 := ⟨fuel - 1, by omega⟩
  rw [findTailLoop, if_pos h8]
  have hcast : ((pre.length : Int) - 8) = ((pre.length - 8 : Nat) : Int) := by omega
  rw [hcast, pySlice_nat pre (pre.length - 8) pre.length (by omega) (le_refl _)]
  have h8' : pre.length - (pre.length - 8) = 8 := by omega
  rw [h8', if_neg hstop]

theorem findTailLoop_peel (pre : List Nat) :
    ∀ amts : List Nat, (∀ a ∈ amts, saneAmount a) →
      ∀ fuel, pre.length + 8 * amts.length ≤ 8 * fuel →
      findTailLoop (pre ++ (amts.map toLE8).flatten) fuel
          (pre.length + 8 * amts.length)
        = ((findTailLoop pre pre.length pre.length).1,
            (findTailLoop pre pre.length pre.length).2 ++ amts) := by
  intro amts
  induction amts using List.reverseRecOn with
  | nil =>
    intro _ fuel hf
    simp only [List.map_nil, List.flatten_nil, List.append_nil, List.length_nil,
      Nat.mul_zero, Nat.add_zero] at hf ⊢
    rw [findTailLoop_fuel pre fuel pre.length pre.length hf (by omega)]
  | append_singleton as a ih =>
    intro hpl fuel hf
    have hplas : ∀ x ∈ as, saneAmount x := fun x hx => hpl x (by simp [hx])
    have hpla : saneAmount a := hpl a (by simp)
    have hidx : pre.length + 8 * (as ++ [a]).length
        = (pre.length + 8 * as.length) + 8 := by
      simp only [List.length_append, List.length_cons, List.length_nil]; omega
    obtain ⟨f, rfl⟩ : ∃ f, fuel = f + 1 := ⟨fuel - 1, by omega⟩
    have hraw : pre ++ ((as ++ [a]).map toLE8).flatten
        = (pre ++ (as.map toLE8).flatten) ++ toLE8 a := by
      simp [List.map_append, List.flatten_append, List.append_assoc]
    have hlen2 : (pre ++ (as.map toLE8).flatten).length
        = pre.length + 8 * as.length := by
      simp only [List.length_append, flatten_map_toLE8_length]
    rw [hidx, hraw, findTailLoop, if_pos (by omega)]
    have hslice : pySlice ((pre ++ (as.map toLE8).flatten) ++ toLE8 a)
        (((pre.length + 8 * as.length + 8 : Nat) : Int) - 8)
        ((pre.length + 8 * as.length + 8 : Nat) : Int) = toLE8 a := by
      have hcast : (((pre.length + 8 * as.length + 8 : Nat) : Int) - 8)
          = ((pre.length + 8 * as.length : Nat) : Int) := by omega
      have hlenraw : ((pre ++ (as.map toLE8).flatten) ++ toLE8 a).length
          = pre.length + 8 * as.length + 8 := by
        simp only [List.length_append, flatten_map_toLE8_length, toLE8_length]
      rw [hcast, pySlice_nat _ (pre.length + 8 * as.length)
        (pre.length + 8 * as.length + 8) (by omega) (by omega)]
      have h8 : pre.length + 8 * as.length + 8 - (pre.length + 8 * as.length) = 8 := by
        omega
      rw [h8, ← hlen2, List.drop_left,
        List.take_of_length_le (by rw [toLE8_length])]
    rw [hslice]
    have hval : leVal (toLE8 a) = a :=
      leVal_toLE8 a (lt_of_lt_of_le hpla.2 (by norm_num))
    rw [hval, if_pos hpla]
    have hm8 : pre.length + 8 * as.length + 8 - 8 = pre.length + 8 * as.length := by
      omega
    rw [hm8, findTailLoop_append _ _ f _ (le_of_eq hlen2.symm),
      ih hplas f (by omega)]
    simp [List.append_assoc]

theorem find_tail_amounts_payload (pre amts : List Nat)
    (h8 : 8 ≤ pre.length)
    (hstop : ¬ saneAmount (leVal ((pre.drop (pre.length - 8)).take 8)))
    (ha : ∀ a ∈ amts, saneAmount a) :
    find_tail_amounts (pre ++ (amts.map toLE8).flatten)
      = (pre.length, amts.length, amts) := by
  unfold find_tail_amounts
  have hlen : (pre ++ (amts.map toLE8).flatten).length
      = pre.length + 8 * amts.length := by
    simp only [List.length_append, flatten_map_toLE8_length]
  rw [hlen, findTailLoop_peel pre amts ha _ (by omega),
    findTailLoop_boundary pre pre.length (by omega) h8 hstop]
  simp

/-! ## Supporting lemmas: recipient block extraction -/

theorem flatten_length_const32 (rs : List (List Nat))
    (h : ∀ r ∈ rs, r.length = 32) :
    rs.flatten.length = 32 * rs.length := by
  induction rs with
  | nil => rfl
  | cons r rest ih =>
    simp only [List.flatten_cons, List.length_append, List.length_cons]
    rw [h r (by simp), ih (fun x hx => h x (by simp [hx]))]
    ring

theorem slices_of_flatten (rs : List (List Nat)) (h : ∀ r ∈ rs, r.length = 32) :
    (List.range rs.length).map (fun k => (rs.flatten.drop (32 * k)).take 32) = rs := by
  induction rs with
  | nil => rfl
  | cons r rest ih =>
    have hr : r.length = 32 := h r (by simp)
    rw [List.length_cons, List.range_succ_eq_map, List.map_cons, List.map_map]
    congr 1
    · simp only [Nat.mul_zero, List.drop_zero, List.flatten_cons]
      rw [List.take_append_of_le_length (by omega),
        List.take_of_length_le (by omega)]
    · have hstep : ∀ k, ((r :: rest).flatten.drop (32 * (k + 1))).take 32
          = (rest.flatten.drop (32 * k)).take 32 := by
        intro k
        have h32 : 32 * (k + 1) = 32 * k + 32 := by omega
        rw [List.flatten_cons, h32, Nat.add_comm (32 * k) 32, ← List.drop_drop]
        congr 2
        rw [← hr, List.drop_left]
      refine Eq.trans (List.map_congr_left (fun k _ => ?_))
        (ih (fun x hx => h x (by simp [hx])))
      show (((r :: rest).flatten.drop (32 * (k + 1))).take 32)
        = (rest.flatten.drop (32 * k)).take 32
      exact hstep k

theorem decodeRaw_payload (recips : List (List Nat)) (amts : List Nat)
    (hn1 : 1 ≤ recips.length) (hn : recips.length = amts.length)
    (hr32 : ∀ r ∈ recips, r.length = 32)
    (ha : ∀ a ∈ amts, saneAmount a)
    (hstop : ¬ saneAmount (leVal
      ((recips.flatten.drop (recips.flatten.length - 8)).take 8))) :
    decodeRaw (recips.flatten ++ (amts.map toLE8).flatten) = recips.zip amts := by
  have hP : recips.flatten.length = 32 * recips.length :=
    flatten_length_const32 recips hr32
  have h8 : 8 ≤ recips.flatten.length := by omega
  have hft := find_tail_amounts_payload recips.flatten amts h8 hstop ha
  have hamts1 : 1 ≤ amts.length := by omega
  have hrawlen : (recips.flatten ++ (amts.map toLE8).flatten).length
      = recips.flatten.length + 8 * amts.length := by
    simp only [List.length_append, flatten_map_toLE8_length]
  have hAB : addrBlock (recips.flatten ++ (amts.map toLE8).flatten)
      = recips.flatten := by
    unfold addrBlock
    rw [hft]
    have hc : ((recips.flatten.length : Int) - (amts.length : Int) * 32)
        = ((0 : Nat) : Int) := by push_cast; omega
    have hc2 : ((recips.flatten.length, amts.length, amts).1 : Int)
        = ((recips.flatten.length : Nat) : Int) := by norm_num
    rw [show ((recips.flatten.length, amts.length, amts).2.1 : Nat) = amts.length
      from rfl, hc2, hc,
      pySlice_nat _ 0 recips.flatten.length (by omega) (by omega)]
    rw [List.drop_zero, Nat.sub_zero, List.take_left]
  rw [decodeRaw, hft]
  have hne0 : ((recips.flatten.length, amts.length, amts).2.1 : Nat) ≠ 0 := by
    show amts.length ≠ 0; omega
  rw [if_neg hne0]
  have hlenok : ¬ ((addrBlock (recips.flatten ++ (amts.map toLE8).flatten)).length
      ≠ ((recips.flatten.length, amts.length, amts).2.1 : Nat) * 32) := by
    rw [hAB]
    show ¬ (recips.flatten.length ≠ amts.length * 32)
    omega
  rw [if_neg hlenok]
  have hrec : recipientsOf (recips.flatten ++ (amts.map toLE8).flatten)
      = recips := by
    unfold recipientsOf
    rw [hft, hAB]
    have hmap : ∀ k ∈ List.range (recips.flatten.length, amts.length, amts).2.1,
        pySlice recips.flatten ((k : Int) * 32) (((k : Int) + 1) * 32)
          = (recips.flatten.drop (32 * k)).take 32 := by
      intro k hk
      simp only [List.mem_range] at hk
      have hk' : k < amts.length := hk
      have hc1 : ((k : Int) * 32) = ((32 * k : Nat) : Int) := by push_cast; ring
      have hc2 : (((k : Int) + 1) * 32) = ((32 * k + 32 : Nat) : Int) := by
        push_cast; ring
      rw [hc1, hc2, pySlice_nat recips.flatten (32 * k) (32 * k + 32)
        (by omega) (by omega)]
      congr 1
      omega
    rw [List.map_congr_left hmap]
    rw [show ((recips.flatten.length, amts.length, amts).2.1 : Nat) = amts.length
      from rfl, ← hn]
    exact slices_of_flatten recips hr32
  rw [hrec]

theorem decodeRaw_of_none (raw : List Nat) (h : (find_tail_amounts raw).2.1 = 0) :
    decodeRaw raw = [] := by
  rw [decodeRaw, if_pos h]

theorem addrBlock_length_ne (raw : List Nat)
    (hlt : (find_tail_amounts raw).1 < (find_tail_amounts raw).2.1 * 32) :
    (addrBlock raw).length ≠ (find_tail_amounts raw).2.1 * 32 := by
  have h1 : (find_tail_amounts raw).1 + 8 * (find_tail_amounts raw).2.1
      = raw.length := by
    show (findTailLoop raw raw.length raw.length).1
        + 8 * (findTailLoop raw raw.length raw.length).2.length = raw.length
    exact findTailLoop_spec raw raw.length raw.length
  rw [addrBlock, pySlice_length]
  unfold pySliceIdx
  split <;> split <;> omega

theorem decodeRaw_of_short (raw : List Nat)
    (h : (find_tail_amounts raw).1 < (find_tail_amounts raw).2.1 * 32) :
    decodeRaw raw = [] := by
  rw [decodeRaw]
  by_cases h0 : (find_tail_amounts raw).2.1 = 0
  · rw [if_pos h0]
  · rw [if_neg h0, if_pos (addrBlock_length_ne raw h)]

/-! ## Claims C1, C2, C7: the payload decoder -/

/-- C1 counterexample: a payload shaped exactly as the claim requires — one
32-byte recipient followed by one saneAmount little-endian amount (5) — on
which `decode_qutil_outputs` returns `[]` instead of the claimed single pair.
The recipient's final 8 bytes read as the in-range value 1, so the backward
scan overshoots into the recipient block and the length check then fails. -/
theorem claim_C1_counterexample :
    (List.replicate 24 0 ++ [1, 0, 0, 0, 0, 0, 0, 0] : List Nat).length = 32 ∧
    (0 < 5 ∧ 5 < 10 ^ 12) ∧
    decode_qutil_outputs (hexEncode
      ((List.replicate 24 0 ++ [1, 0, 0, 0, 0, 0, 0, 0]) ++ toLE8 5)) = .ok [] := by
  exact ⟨by decide, by decide, by decide⟩

/-- C1 (amended): for every byte payload shaped as exactly `n` contiguous
32-byte recipient identifiers immediately followed by exactly `n` 8-byte
little-endian amounts each strictly between 0 and `10^12` (`n ≥ 1`), and
whose recipient block's final 8 bytes do not themselves read as a
little-endian value strictly between 0 and `10^12`, decoding its hex encoding
with `decode_qutil_outputs` returns exactly those `n` `(recipient, amount)`
pairs in original order. -/
theorem claim_C1 (recips : List (List Nat)) (amts : List Nat)
    (hn1 : 1 ≤ recips.length) (hn : recips.length = amts.length)
    (hr32 : ∀ r ∈ recips, r.length = 32)
    (hrb : ∀ r ∈ recips, ∀ b ∈ r, b < 256)
    (ha : ∀ a ∈ amts, 0 < a ∧ a < 10 ^ 12)
    (hstop : ¬ (0 < leVal (recips.flatten.drop (recips.flatten.length - 8)) ∧
        leVal (recips.flatten.drop (recips.flatten.length - 8)) < 10 ^ 12)) :
    decode_qutil_outputs (hexEncode (recips.flatten ++ (amts.map toLE8).flatten))
      = .ok (recips.zip amts) := by
  have hbytes : ∀ b ∈ recips.flatten ++ (amts.map toLE8).flatten, b < 256 := by
    intro b hb
    rcases List.mem_append.mp hb with h | h
    · obtain ⟨r, hr, hbr⟩ := List.mem_flatten.mp h
      exact hrb r hr b hbr
    · obtain ⟨l, hl, hbl⟩ := List.mem_flatten.mp h
      obtain ⟨a, _, rfl⟩ := List.mem_map.mp hl
      exact toLEBytes_lt 8 a b hbl
  have hu := unhexlify_hexEncode _ hbytes
  have hlen8 : (recips.flatten.drop (recips.flatten.length - 8)).length ≤ 8 := by
    simp only [List.length_drop]; omega
  have hstop' : ¬ saneAmount (leVal
      ((recips.flatten.drop (recips.flatten.length - 8)).take 8)) := by
    rw [List.take_of_length_le hlen8]; exact hstop
  rw [decode_qutil_outputs, hu]
  exact congrArg Except.ok (decodeRaw_payload recips amts hn1 hn hr32 ha hstop')

theorem claim_C1_witness :
    decode_qutil_outputs (hexEncode (List.replicate 32 0 ++ toLE8 7))
      = .ok [(List.replicate 32 0, 7)] := by
  have h := claim_C1 [List.replicate 32 0] [7] (by decide) (by decide)
    (by decide) (by decide) (by decide) (by decide)
  simpa using h

/-- C2 counterexample: the claim says `decode_qutil_outputs` never raises on
any input string, but the source catches only `binascii.Error`, and on a
string holding a non-ASCII character CPython's `unhexlify` raises a plain
`ValueError` that propagates out of `decode_qutil_outputs` uncaught (the
`.error` outcome of the embedding). -/
theorem claim_C2_counterexample :
    decode_qutil_outputs ['é'] = .error () := by decide

/-- C2 (amended): on every input string of ASCII characters,
`decode_qutil_outputs` never raises — it returns a value, namely the empty
list on malformed hex (the caught `binascii.Error`: odd length or non-hex
digit), on a payload with no plausible trailing amount block (`n = 0`), and
on a recipient block shorter than `32*n` bytes (`amt_start < 32*n`); on a
string holding a non-ASCII character it raises an uncaught `ValueError`. -/
theorem claim_C2 (s : List Char) :
    ((∀ c ∈ s, c.toNat < 128) → ∃ outs, decode_qutil_outputs s = .ok outs) ∧
    ((∃ c ∈ s, ¬ c.toNat < 128) → decode_qutil_outputs s = .error ()) ∧
    (unhexlify s = .error .binasciiError → decode_qutil_outputs s = .ok []) ∧
    (∀ raw, unhexlify s = .ok raw →
      ((find_tail_amounts raw).2.1 = 0 → decode_qutil_outputs s = .ok []) ∧
      ((find_tail_amounts raw).1 < (find_tail_amounts raw).2.1 * 32 →
        decode_qutil_outputs s = .ok [])) := by
  refine ⟨fun hascii => ?_, fun hbad => ?_, fun h => ?_,
    fun raw h => ⟨fun h0 => ?_, fun hs => ?_⟩⟩
  · have hall : s.all (fun c => c.toNat < 128) = true := by
      rw [List.all_eq_true]
      intro c hc
      simpa using hascii c hc
    cases hd : unhexDigits s with
    | none =>
      refine ⟨[], ?_⟩
      rw [decode_qutil_outputs, unhexlify, if_pos hall, hd]
    | some bs =>
      refine ⟨decodeRaw bs, ?_⟩
      rw [decode_qutil_outputs, unhexlify, if_pos hall, hd]
  · obtain ⟨c, hc, hge⟩ := hbad
    have hall : ¬ (s.all (fun c => c.toNat < 128) = true) := by
      rw [List.all_eq_true]
      intro hA
      have := hA c hc
      simp at this
      omega
    rw [decode_qutil_outputs, unhexlify, if_neg hall]
  · rw [decode_qutil_outputs, h]
  · rw [decode_qutil_outputs, h]
    exact congrArg Except.ok (decodeRaw_of_none raw h0)
  · rw [decode_qutil_outputs, h]
    exact congrArg Except.ok (decodeRaw_of_short raw hs)

theorem claim_C2_witness :
    decode_qutil_outputs ['z', 'z'] = .ok [] ∧
    decode_qutil_outputs (hexEncode [1, 2, 3]) = .ok [] ∧
    decode_qutil_outputs ['a', 'é'] = .error () :=
  ⟨(claim_C2 ['z', 'z']).2.2.1 (by decide),
    ((claim_C2 (hexEncode [1, 2, 3])).2.2.2 [1, 2, 3] (by decide)).1 (by decide),
    (claim_C2 ['a', 'é']).2.1 (by decide)⟩

/-- C7: for every hex string whose decoded byte form is shorter than 8 bytes,
and for every hex string whose last 8 bytes read as an unsigned little-endian
integer not strictly between 0 and `10^12`, `decode_qutil_outputs` returns
the empty list. -/
theorem claim_C7 (s : List Char) (raw : List Nat) (h : unhexlify s = .ok raw) :
    (raw.length < 8 → decode_qutil_outputs s = .ok []) ∧
    (¬ (0 < leVal (raw.drop (raw.length - 8)) ∧
        leVal (raw.drop (raw.length - 8)) < 10 ^ 12) →
      decode_qutil_outputs s = .ok []) := by
  have hshort : raw.length < 8 → decode_qutil_outputs s = .ok [] := by
    intro hlt
    rw [decode_qutil_outputs, h]
    refine congrArg Except.ok (decodeRaw_of_none raw ?_)
    show (findTailLoop raw raw.length raw.length).2.length = 0
    rw [findTailLoop_of_lt raw _ _ hlt]
    rfl
  refine ⟨hshort, fun hstop => ?_⟩
  by_cases hlt : raw.length < 8
  · exact hshort hlt
  · have h8 : 8 ≤ raw.length := by omega
    have hlen8 : (raw.drop (raw.length - 8)).length ≤ 8 := by
      simp only [List.length_drop]; omega
    have hstop' : ¬ saneAmount (leVal ((raw.drop (raw.length - 8)).take 8)) := by
      rw [List.take_of_length_le hlen8]; exact hstop
    rw [decode_qutil_outputs, h]
    refine congrArg Except.ok (decodeRaw_of_none raw ?_)
    show (findTailLoop raw raw.length raw.length).2.length = 0
    rw [findTailLoop_boundary raw raw.length (by omega) h8 hstop']
    rfl

theorem claim_C7_witness :
    decode_qutil_outputs (hexEncode [9, 9, 9]) = .ok [] ∧
    decode_qutil_outputs (hexEncode (List.replicate 8 0)) = .ok [] :=
  ⟨(claim_C7 (hexEncode [9, 9, 9]) [9, 9, 9] (by decide)).1 (by decide),
    (claim_C7 (hexEncode (List.replicate 8 0)) (List.replicate 8 0)
      (by decide)).2 (by decide)⟩

/-! ## Supporting lemmas: the fetch client -/

theorem politeLoop_count_le (retries : Nat) :
    ∀ (resps : List Resp) (attempt : Nat), attempt ≤ retries →
      (∀ r ∈ resps, retriable r = true → raisesAtExhaustion r = true) →
      (politeLoop retries resps attempt).2 ≤ retries + 1 - attempt := by
  intro resps
  induction resps with
  | nil => intro attempt h _; simp [politeLoop]
  | cons r rest ih =>
    intro attempt h hre
    have htail : ∀ x ∈ rest, retriable x = true → raisesAtExhaustion x = true :=
      fun x hx => hre x (by simp [hx])
    cases r with
    | netErr =>
      rw [politeLoop]
      split
      · simp; omega
      · have hr := ih (attempt + 1) (by omega) htail
        simp only []
        omega
    | http code =>
      rw [politeLoop]
      by_cases hc429 : code = 429
      · rw [if_pos hc429]
        split
        · simp; omega
        · have hr := ih (attempt + 1) (by omega) htail
          simp only []
          omega
      · rw [if_neg hc429]
        by_cases hc5 : 500 ≤ code
        · rw [if_pos hc5]
          have hretri : retriable (Resp.http code) = true := by
            simp [retriable]; omega
          have hraise := hre (Resp.http code) (by simp) hretri
          have hlt600 : code < 600 := by
            simp [raisesAtExhaustion] at hraise
            rcases hraise with h1 | h1
            · omega
            · omega
          by_cases hx : attempt + 1 > retries ∧ code < 600
          · rw [if_pos hx]; simp; omega
          · rw [if_neg hx]
            have hr := ih (attempt + 1) (by omega) htail
            simp only []
            omega
        · rw [if_neg hc5]
          split
          · simp; omega
          · simp; omega

theorem politeLoop_retriable_prefix (retries : Nat) :
    ∀ (fails rest : List Resp) (attempt : Nat),
      (∀ r ∈ fails, retriable r = true) →
      attempt + fails.length ≤ retries →
      politeLoop retries (fails ++ rest) attempt
        = ((politeLoop retries rest (attempt + fails.length)).1,
            (politeLoop retries rest (attempt + fails.length)).2 + fails.length) := by
  intro fails
  induction fails with
  | nil => intro rest attempt _ _; simp
  | cons r fs ih =>
    intro rest attempt hall hlen
    simp only [List.length_cons] at hlen ⊢
    have hr : retriable r = true := hall r (by simp)
    have htail : ∀ x ∈ fs, retriable x = true := fun x hx => hall x (by simp [hx])
    have hidx : attempt + 1 + fs.length = attempt + (fs.length + 1) := by omega
    cases r with
    | netErr =>
      rw [List.cons_append, politeLoop, if_neg (by omega),
        ih rest (attempt + 1) htail (by omega), hidx]
      rfl
    | http code =>
      have hcode : code = 429 ∨ 500 ≤ code := by
        simp [retriable] at hr; exact hr
      rcases hcode with hc | hc
      · rw [List.cons_append, politeLoop, if_pos hc, if_neg (by omega),
          ih rest (attempt + 1) htail (by omega), hidx]
        rfl
      · rw [List.cons_append, politeLoop, if_neg (by omega), if_pos hc,
          if_neg (by omega), ih rest (attempt + 1) htail (by omega), hidx]
        rfl

theorem politeLoop_exhaust (retries : Nat) (r : Resp) (rest : List Resp)
    (hr : raisesAtExhaustion r = true) :
    politeLoop retries (r :: rest) retries = (.raised (underlying r), 1) := by
  cases r with
  | netErr => rw [politeLoop, if_pos (by omega)]; rfl
  | http code =>
    have hcode : code = 429 ∨ (500 ≤ code ∧ code < 600) := by
      simp [raisesAtExhaustion] at hr; exact hr
    rcases hcode with hc | hc
    · rw [politeLoop, if_pos hc, if_pos (by omega)]
      rfl
    · rw [politeLoop, if_neg (by omega), if_pos hc.1, if_pos ⟨by omega, hc.2⟩]
      rfl

theorem politeLoop_other_status (retries attempt code : Nat) (rest : List Resp)
    (h429 : code ≠ 429) (h5 : code < 500) (h4 : 400 ≤ code) :
    politeLoop retries (.http code :: rest) attempt
      = (.raised (.statusError code), 1) := by
  rw [politeLoop, if_neg h429, if_neg (by omega), if_pos h4]

theorem politeLoop_success (retries attempt code : Nat) (rest : List Resp)
    (h4 : code < 400) :
    politeLoop retries (.http code :: rest) attempt = (.success code, 1) := by
  rw [politeLoop, if_neg (by omega), if_neg (by omega), if_neg (by omega)]

/-! ## Claim C5: retry policy of `polite_get` -/

/-- C5 counterexample: two parts of the claim fail on the code. A 304
response — a non-2xx status outside the retried classes — is returned
without raising, where the claim says any other non-2xx status raises
immediately; and statuses of 600 or more are matched by the `>= 500` retry
test while `raise_for_status()` is a no-op for them at budget exhaustion, so
with `retries = 1` a run of three 999 responses issues 3 requests — beyond
the claimed `1 + retries = 2` bound — instead of raising. -/
theorem claim_C5_counterexample :
    polite_get 6 [Resp.http 304] = (.success 304, 1) ∧
    (polite_get 1 [Resp.http 999, Resp.http 999, Resp.http 999]).2 = 3 ∧
    ¬ (3 : Nat) ≤ 1 + 1 := by
  exact ⟨by decide, by decide, by decide⟩

/-- C5 (amended): `polite_get` retries only network-level failures, HTTP 429
and HTTP 5xx (any status `≥ 500`) against the shared budget of `retries`
attempts, issuing one request per consumed response: after at most `retries`
retriable faults a 4xx status other than 429 raises immediately without a
retry, while a status below 400 is returned without raising; when the
`retries + 1`-th consecutive retriable fault is a network failure, a 429, or
a 5xx with status below 600, its underlying failure is raised regardless of
later responses; and whenever every retriable response is of such a kind
(`raise_for_status` raises only for statuses in `[400, 600)`), at most
`1 + retries` requests are issued — a run of statuses `≥ 600` instead keeps
retrying without bound. -/
theorem claim_C5 (retries : Nat) :
    (∀ (fails rest : List Resp) (code : Nat),
      (∀ r ∈ fails, retriable r = true) → fails.length ≤ retries →
      code ≠ 429 → code < 500 → 400 ≤ code →
      polite_get retries (fails ++ .http code :: rest)
        = (.raised (.statusError code), fails.length + 1)) ∧
    (∀ (fails rest : List Resp) (code : Nat),
      (∀ r ∈ fails, retriable r = true) → fails.length ≤ retries →
      code < 400 →
      polite_get retries (fails ++ .http code :: rest)
        = (.success code, fails.length + 1)) ∧
    (∀ (fails : List Resp) (f : Resp) (rest : List Resp),
      (∀ r ∈ fails, retriable r = true) → raisesAtExhaustion f = true →
      fails.length = retries →
      polite_get retries (fails ++ f :: rest)
        = (.raised (underlying f), retries + 1)) ∧
    (∀ resps : List Resp,
      (∀ r ∈ resps, retriable r = true → raisesAtExhaustion r = true) →
      (polite_get retries resps).2 ≤ retries + 1) := by
  refine ⟨fun fails rest code hall hlen h429 h5 h4 => ?_,
    fun fails rest code hall hlen h4 => ?_,
    fun fails f rest hfs hf hlen => ?_,
    fun resps hre => ?_⟩
  · rw [polite_get, politeLoop_retriable_prefix retries fails _ 0 hall (by omega),
      Nat.zero_add, politeLoop_other_status retries fails.length code rest h429 h5 h4]
    simp [Nat.add_comm]
  · rw [polite_get, politeLoop_retriable_prefix retries fails _ 0 hall (by omega),
      Nat.zero_add, politeLoop_success retries fails.length code rest h4]
    simp [Nat.add_comm]
  · rw [polite_get, politeLoop_retriable_prefix retries fails _ 0 hfs (by omega),
      Nat.zero_add, hlen, politeLoop_exhaust retries f rest hf]
    simp [Nat.add_comm]
  · have h := politeLoop_count_le retries resps 0 (by omega) hre
    rw [polite_get]
    omega

theorem claim_C5_witness :
    polite_get 1 [Resp.netErr, Resp.http 404]
      = (.raised (.statusError 404), 2) := by
  have h := (claim_C5 1).1 [Resp.netErr] [] 404 (by decide) (by decide)
    (by decide) (by decide) (by decide)
  exact h

/-! ## Supporting lemmas: the scan driver -/

theorem savedOf_matched (ms : List MatchRec) : savedOf (ms.map Ev.matched) = [] := by
  simp [savedOf, List.filterMap_map]

theorem savedOf_append (a b : List Ev) :
    savedOf (a ++ b) = savedOf a ++ savedOf b := by
  simp [savedOf, List.filterMap_append]

theorem savedOf_scanFrom (fetch : Nat → Except Unit (List (Option Tx)))
    (df : Option String) (tgt : Nat) :
    ∀ (count tick : Nat), savedOf (scanFrom fetch df tgt tick count)
      = List.range' (tick + 1) count := by
  intro count
  induction count with
  | zero => intro tick; rfl
  | succ c ih =>
    intro tick
    rw [scanFrom]
    cases hf : fetch tick with
    | error e =>
      simp only [savedOf, List.filterMap_cons] at *
      rw [ih (tick + 1)]
      rfl
    | ok wraps =>
      rw [savedOf_append, savedOf_matched, List.nil_append]
      simp only [savedOf, List.filterMap_cons] at *
      rw [ih (tick + 1)]
      rfl

/-! ## Claims C3, C4, C8: the scan driver -/

/-- C3: across a run of `scan` started at tick `t` with inclusive end `e`,
the sequence of persisted `next_tick` values is exactly
`t+1, t+2, ..., e+1`; hence `save_state` is called exactly once per
processed tick (on both the success and the failure path), the persisted
`next_tick` is monotonically non-decreasing, and the state persisted after
processing tick `u` has `next_tick = u + 1`. -/
theorem claim_C3 (fetch : Nat → Except Unit (List (Option Tx)))
    (df : Option String) (tgt : Nat) (t e : Nat) :
    savedOf (scanEvents fetch df tgt t e) = List.range' (t + 1) (e + 1 - t) ∧
    (savedOf (scanEvents fetch df tgt t e)).length = e + 1 - t ∧
    (savedOf (scanEvents fetch df tgt t e)).Sorted (· ≤ ·) ∧
    (∀ u, t ≤ u → u ≤ e →
      (savedOf (scanEvents fetch df tgt t e))[u - t]? = some (u + 1)) := by
  have h : savedOf (scanEvents fetch df tgt t e) = List.range' (t + 1) (e + 1 - t) :=
    savedOf_scanFrom fetch df tgt (e + 1 - t) t
  refine ⟨h, ?_, ?_, ?_⟩
  · rw [h, List.length_range']
  · rw [h]
    exact (List.pairwise_lt_range' (t + 1) (e + 1 - t) 1 (by omega)).imp
      (fun hlt => le_of_lt hlt)
  · intro u hu1 hu2
    rw [h, List.getElem?_range' _ _ (by omega)]
    congr 1
    omega

theorem claim_C3_witness :
    savedOf (scanEvents (fun _ => .ok []) none 0 3 5) = [4, 5, 6] ∧
    (savedOf (scanEvents (fun _ => .ok []) none 0 3 5))[1]? = some 5 := by
  have h := claim_C3 (fun _ => .ok []) none 0 3 5
  exact ⟨by rw [h.1]; rfl, h.2.2.2 4 (by omega) (by omega)⟩

/-- C4: when the fetch of tick `t` raises (after the fetch client's retries
are exhausted), `scan` emits the warning for `t`, advances the cursor,
persists `next_tick = t + 1`, and continues with tick `t + 1`; the events of
tick `t` contain no match record, so nothing of that tick is decoded or
recorded. -/
theorem claim_C4 (fetch : Nat → Except Unit (List (Option Tx)))
    (df : Option String) (tgt : Nat) (t e : Nat) (err : Unit)
    (ht : t ≤ e) (hf : fetch t = .error err) :
    scanEvents fetch df tgt t e
      = Ev.warn t :: Ev.saved (t + 1) :: scanEvents fetch df tgt (t + 1) e ∧
    (∀ m : MatchRec, Ev.matched m ≠ Ev.warn t ∧ Ev.matched m ≠ Ev.saved (t + 1)) := by
  constructor
  · have h1 : e + 1 - t = (e + 1 - (t + 1)) + 1 := by omega
    rw [scanEvents, scanEvents, h1, scanFrom, hf]
  · intro m
    exact ⟨fun hc => Ev.noConfusion hc, fun hc => Ev.noConfusion hc⟩

theorem claim_C4_witness :
    scanEvents (fun _ => Except.error ()) none 0 0 0 = [Ev.warn 0, Ev.saved 1] := by
  have h := claim_C4 (fun _ => Except.error ()) none 0 0 0 () (by omega) rfl
  rw [h.1]
  rfl

theorem destMismatch_false_iff (df : Option String) (tx : Tx) :
    destMismatch df tx = false ↔ (∀ d, df = some d → tx.destId = some d) := by
  cases df with
  | none => simp [destMismatch]
  | some d => simp [destMismatch]

theorem processTx_decodes_iff (df : Option String) (tgt curTick : Nat) (tx : Tx) :
    (processTx df tgt curTick tx).1 = true ↔
      (destMismatch df tx = false ∧ tx.inputType = some 1 ∧ tx.inputHex ≠ none) := by
  rw [processTx]
  by_cases h1 : destMismatch df tx = true
  · rw [if_pos h1]
    simp [h1]
  · have h1f : destMismatch df tx = false := by
      revert h1; cases destMismatch df tx <;> simp
    rw [if_neg h1]
    by_cases h2 : tx.inputType ≠ some 1 ∨ tx.inputHex = none
    · rw [if_pos h2]
      simp only [h1f]
      constructor
      · intro hc; exact absurd hc (by simp)
      · intro hc
        rcases h2 with h | h
        · exact absurd hc.2.1 h
        · exact absurd h hc.2.2
    · rw [if_neg h2]
      push_neg at h2
      simp [h1f, h2.1, h2.2]

theorem processTx_skip_inputType (df : Option String) (tgt curTick : Nat)
    (tx : Tx) (h : tx.inputType ≠ some 1) :
    processTx df tgt curTick tx = (false, []) := by
  rw [processTx]
  by_cases h1 : destMismatch df tx = true
  · rw [if_pos h1]
  · rw [if_neg h1, if_pos (Or.inl h)]

/-- C8: inside `scan`, a transaction is passed to `decode_qutil_outputs` if
and only if it survives the destination filter (when one is configured, its
`destId` must equal it), its `inputType` equals 1 and it has an `inputHex`
field; in particular any transaction with `inputType ≠ 1` is skipped before
decoding, regardless of payload content, and contributes no match. -/
theorem claim_C8 (df : Option String) (tgt curTick : Nat) (tx : Tx) :
    ((processTx df tgt curTick tx).1 = true ↔
      ((∀ d, df = some d → tx.destId = some d) ∧
        tx.inputType = some 1 ∧ tx.inputHex ≠ none)) ∧
    (tx.inputType ≠ some 1 → processTx df tgt curTick tx = (false, [])) := by
  constructor
  · rw [processTx_decodes_iff, destMismatch_false_iff]
  · exact processTx_skip_inputType df tgt curTick tx

theorem claim_C8_witness :
    processTx none 5 0
      { destId := some "X", inputType := some 2, inputHex := some ['0', '0'] }
      = (false, []) :=
  (claim_C8 none 5 0 _).2 (by decide)

/-! ## Claims C6, C9, C10: the progress and match stores -/

/-- C6: `load_state` is total (never raises: every read/parse failure is
caught), and returns the default state `{"next_tick": START_TICK}` both when
the progress file is missing and when reading or parsing it raised. -/
theorem claim_C6 (START_TICK : Int) :
    load_state START_TICK none = J.obj [("next_tick", J.num START_TICK)] ∧
    load_state START_TICK (some (.error ()))
      = J.obj [("next_tick", J.num START_TICK)] :=
  ⟨rfl, rfl⟩

/-- C9: appending a match record to an existing results collection and
reloading the results file yields the prior collection extended with the
record unchanged at the end. -/
theorem claim_C9 (existing : List J) (rec : J) :
    append_match (some (.ok (J.arr existing))) rec
      = .ok (J.arr (existing ++ [rec])) ∧
    matchesRead (some (.ok (J.arr (existing ++ [rec]))))
      = J.arr (existing ++ [rec]) ∧
    (existing ++ [rec]).getLast? = some rec :=
  ⟨rfl, rfl, by simp⟩

/-- C10 counterexample: `{}` is syntactically valid JSON and is not an
object with a numeric `next_tick` field, so it is in the claim's scope;
`load_state` indeed returns it unchanged, but `scan` does not raise at
startup: `state.get("next_tick", START_TICK)` returns the default and
`int()` succeeds. -/
theorem claim_C10_counterexample :
    load_state 12345 (some (.ok (J.obj []))) = J.obj [] ∧
    scan_next_tick 12345 (some (.ok (J.obj []))) = .ok 12345 :=
  ⟨rfl, rfl⟩

/-! Supporting lemmas for C10: `int()` certainly raises `ValueError` on a
non-empty all-letter string — no letter is whitespace, a sign, or a digit. -/

theorem isPySpace_false_of_ge (c : Char) (hge : 'A' ≤ c) : isPySpace c = false := by
  rw [isPySpace]
  simp only [decide_eq_false_iff_not]
  push_neg
  refine ⟨?_, ?_, ?_, ?_, ?_, ?_⟩ <;>
    (intro hc; rw [hc] at hge; revert hge; decide)

theorem dropWhile_isPySpace_eq_self (l : List Char)
    (h : ∀ c ∈ l, isPySpace c = false) :
    l.dropWhile isPySpace = l := by
  cases l with
  | nil => rfl
  | cons c t =>
    rw [List.dropWhile_cons, if_neg (by simp [h c (by simp)])]

theorem stripSpaces_eq_self (l : List Char) (h : ∀ c ∈ l, isPySpace c = false) :
    stripSpaces l = l := by
  rw [stripSpaces, dropWhile_isPySpace_eq_self l h,
    dropWhile_isPySpace_eq_self l.reverse
      (fun c hc => h c (List.mem_reverse.mp hc)),
    List.reverse_reverse]

theorem pyStrToInt_letters (s : List Char) (hne : s ≠ [])
    (hl : ∀ c ∈ s, ('a' ≤ c ∧ c ≤ 'z') ∨ ('A' ≤ c ∧ c ≤ 'Z')) :
    pyStrToInt s = .error () := by
  have hge : ∀ c ∈ s, 'A' ≤ c := by
    intro c hc
    rcases hl c hc with ⟨h1, _⟩ | ⟨h1, _⟩
    · exact le_trans (by decide) h1
    · exact h1
  have hstrip : stripSpaces s = s :=
    stripSpaces_eq_self s (fun c hc => isPySpace_false_of_ge c (hge c hc))
  obtain ⟨c, rest, rfl⟩ : ∃ c rest, s = c :: rest := by
    cases s with
    | nil => exact absurd rfl hne
    | cons a t => exact ⟨a, t, rfl⟩
  have hgec : 'A' ≤ c := hge c (by simp)
  have hnm : c ≠ '-' := fun hc => absurd hgec (by rw [hc]; decide)
  have hnp : c ≠ '+' := fun hc => absurd hgec (by rw [hc]; decide)
  have hd : decDigit c = none := by
    rw [decDigit, if_neg]
    rintro ⟨_, h9⟩
    exact absurd (le_trans hgec h9) (by decide)
  have hdv : digitsVal (c :: rest) 0 false = none := by
    rw [digitsVal, hd]
    exact if_neg (by simp)
  rw [pyStrToInt, hstrip, pyIntOfStripped, if_neg hnm, if_neg hnp, hdv]

/-- C10 (amended): when the progress file holds any syntactically valid
JSON, `load_state` returns the parsed value unchanged, whatever its shape;
`scan` then raises an uncaught exception at startup when extracting
`next_tick` in particular when the value is not an object (for example a
JSON array: `AttributeError` on `.get`), when its `next_tick` field holds a
non-numeric string such as one made of letters (`ValueError` in `int()`),
and when it holds `null` (`TypeError` in `int()`); it does not raise for
every such file, though: an object whose `next_tick` field is missing falls
back to the configured `START_TICK`, and a boolean `next_tick` is coerced by
`int()`, so `scan` proceeds without raising in those cases. -/
theorem claim_C10 (START_TICK : Int) (v : J) :
    load_state START_TICK (some (.ok v)) = v ∧
    (∀ xs, v = J.arr xs →
      scan_next_tick START_TICK (some (.ok v)) = .error ()) ∧
    (∀ fields s, v = J.obj fields →
      jLookup fields "next_tick" = some (J.str s) →
      s.data ≠ [] →
      (∀ c ∈ s.data, ('a' ≤ c ∧ c ≤ 'z') ∨ ('A' ≤ c ∧ c ≤ 'Z')) →
      scan_next_tick START_TICK (some (.ok v)) = .error ()) ∧
    (∀ fields, v = J.obj fields → jLookup fields "next_tick" = some J.null →
      scan_next_tick START_TICK (some (.ok v)) = .error ()) ∧
    (∀ fields, v = J.obj fields → jLookup fields "next_tick" = none →
      scan_next_tick START_TICK (some (.ok v)) = .ok START_TICK) ∧
    (∀ fields b, v = J.obj fields → jLookup fields "next_tick" = some (J.bool b) →
      scan_next_tick START_TICK (some (.ok v)) = .ok (if b then 1 else 0)) := by
  refine ⟨rfl, fun xs hv => ?_, fun fields str hv hl hne hletters => ?_,
    fun fields hv hl => ?_, fun fields hv hl => ?_, fun fields b hv hl => ?_⟩
  · subst hv; rfl
  · subst hv
    have hget : pyGet (load_state START_TICK (some (.ok (J.obj fields))))
        "next_tick" (J.num START_TICK) = .ok (J.str str) := by
      simp [load_state, pyGet, hl]
    rw [scan_next_tick, hget]
    exact pyStrToInt_letters str.data hne hletters
  · subst hv
    have hget : pyGet (load_state START_TICK (some (.ok (J.obj fields))))
        "next_tick" (J.num START_TICK) = .ok J.null := by
      simp [load_state, pyGet, hl]
    rw [scan_next_tick, hget]
    rfl
  · subst hv
    have hget : pyGet (load_state START_TICK (some (.ok (J.obj fields))))
        "next_tick" (J.num START_TICK) = .ok (J.num START_TICK) := by
      simp [load_state, pyGet, hl]
    rw [scan_next_tick, hget]
    rfl
  · subst hv
    have hget : pyGet (load_state START_TICK (some (.ok (J.obj fields))))
        "next_tick" (J.num START_TICK) = .ok (J.bool b) := by
      simp [load_state, pyGet, hl]
    rw [scan_next_tick, hget]
    rfl

theorem claim_C10_witness :
    scan_next_tick 7 (some (.ok (J.arr []))) = .error () ∧
    scan_next_tick 7 (some (.ok (J.obj [("next_tick", J.str "abc")]))) = .error () ∧
    scan_next_tick 7 (some (.ok (J.obj [("next_tick", J.null)]))) = .error () :=
  ⟨(claim_C10 7 (J.arr [])).2.1 [] rfl,
    (claim_C10 7 (J.obj [("next_tick", J.str "abc")])).2.2.1
      [("next_tick", J.str "abc")] "abc" rfl rfl (by decide) (by decide),
    (claim_C10 7 (J.obj [("next_tick", J.null)])).2.2.2.1
      [("next_tick", J.null)] rfl rfl⟩

end QubicTxSearch
